import Mathlib

/-!
Verification of the BlurHash encoder in `src/blurhash.rs` of rakki194/hashhaze.

The `f64` arithmetic of the source is modelled over the real numbers `ℝ`
(exact arithmetic: `f64::powf` becomes `Real.rpow`, `f64::cos` becomes
`Real.cos`, `f64::floor` becomes `Int.floor`, a `usize` cast of a
non-negative float becomes `Nat.floor` / `Int.toNat`, which also matches
Rust's saturating float-to-integer cast at `0` for negative inputs).
Integer and string computations are translated exactly.
-/

namespace HashHaze

/-- Mirrors `enum EncodingError` in src/blurhash.rs. -/
inductive EncodingError where
  | ComponentsNumberInvalid
  | BytesPerPixelMismatch
deriving DecidableEq, Repr

/-- Mirrors `sign_pow`: `value.abs().powf(exp).copysign(value)`.
`copysign` puts the sign of `value` on the non-negative magnitude
`|value| ^ exp`. -/
noncomputable def sign_pow (value : ℝ) (exp : ℝ) : ℝ :=
  if value < 0 then -(|value| ^ exp) else |value| ^ exp

/-- Mirrors `linear_to_srgb`: clamp to [0,1], piecewise transfer
function, `+ 0.5` bias, `as usize` cast (truncation, saturating at 0). -/
noncomputable def linear_to_srgb (value : ℝ) : ℕ :=
  let v := max 0 (min 1 value)
  if v ≤ 0.0031308 then
    ⌊v * 12.92 * 255 + 0.5⌋₊
  else
    ⌊(1.055 * v ^ ((1 : ℝ) / 2.4) - 0.055) * 255 + 0.5⌋₊

/-- Mirrors `srgb_to_linear`: normalize by 255, piecewise transfer
function with threshold 0.04045. -/
noncomputable def srgb_to_linear (value : ℕ) : ℝ :=
  let v : ℝ := (value : ℝ) / 255
  if v ≤ 0.04045 then v / 12.92 else ((v + 0.055) / 1.055) ^ (2.4 : ℝ)

/-- The pixel-buffer index expression of `multiply_basis_function`:
`bytes_per_pixel * x + pixel_offset + c + y * bytes_per_row`, where
`c` is the channel offset (0 for red, 1 for green, 2 for blue). -/
def pixel_index (bytes_per_pixel x pixel_offset c y bytes_per_row : ℕ) : ℕ :=
  bytes_per_pixel * x + pixel_offset + c + y * bytes_per_row

/-- Mirrors `multiply_basis_function`: accumulate
`basis(x, y) * srgb_to_linear(pixels[...])` per channel over all pixels,
then scale by `1 / (width * height)`.  Out-of-range reads are modelled
with `List.getD _ 0`; the separate bounds theorem shows validated calls
never read out of range. -/
noncomputable def multiply_basis_function (pixels : List ℕ)
    (width height bytes_per_row bytes_per_pixel pixel_offset : ℕ)
    (basis_function : ℝ → ℝ → ℝ) : ℝ × ℝ × ℝ :=
  let r := ∑ x ∈ Finset.range width, ∑ y ∈ Finset.range height,
    basis_function x y *
      srgb_to_linear (pixels.getD (pixel_index bytes_per_pixel x pixel_offset 0 y bytes_per_row) 0)
  let g := ∑ x ∈ Finset.range width, ∑ y ∈ Finset.range height,
    basis_function x y *
      srgb_to_linear (pixels.getD (pixel_index bytes_per_pixel x pixel_offset 1 y bytes_per_row) 0)
  let b := ∑ x ∈ Finset.range width, ∑ y ∈ Finset.range height,
    basis_function x y *
      srgb_to_linear (pixels.getD (pixel_index bytes_per_pixel x pixel_offset 2 y bytes_per_row) 0)
  let scale : ℝ := 1 / ((width * height : ℕ) : ℝ)
  (r * scale, g * scale, b * scale)

/-- One grid-cell factor of `encode`'s double loop: the call to
`multiply_basis_function` with the cosine closure captured at grid
indices `(x, y)`, with normalisation 1 at `(0,0)` and 2 elsewhere. -/
noncomputable def blur_factor (pixels : List ℕ) (width height : ℕ) (x y : ℕ) : ℝ × ℝ × ℝ :=
  let normalisation : ℝ := if x = 0 ∧ y = 0 then 1 else 2
  multiply_basis_function pixels width height (width * 4) 4 0
    (fun a b =>
      normalisation * Real.cos ((Real.pi * (x : ℝ) * a) / (width : ℝ)) *
        Real.cos ((Real.pi * (y : ℝ) * b) / (height : ℝ)))

/-- The AC coefficient list built by `encode`'s double loop: `y` outer,
`x` inner, every factor except the one at `(0,0)` pushed in order. -/
noncomputable def ac_list (pixels : List ℕ) (cx cy width height : ℕ) : List (ℝ × ℝ × ℝ) :=
  (List.range cy).flatMap fun y =>
    (List.range cx).filterMap fun x =>
      if x = 0 ∧ y = 0 then none else some (blur_factor pixels width height x y)

/-- Mirrors `let size_flag = ((cx - 1) + (cy - 1) * 9)` in `encode`. -/
def size_flag (cx cy : ℕ) : ℕ :=
  (cx - 1) + (cy - 1) * 9

/-- Mirrors `encode_dc`: pack the three `linear_to_srgb` samples as
`(r << 16) + (g << 8) + b`. -/
noncomputable def encode_dc (value : ℝ × ℝ × ℝ) : ℕ :=
  let rounded_r := linear_to_srgb value.1
  let rounded_g := linear_to_srgb value.2.1
  let rounded_b := linear_to_srgb value.2.2
  (rounded_r <<< 16) + (rounded_g <<< 8) + rounded_b

/-- Mirrors `encode_ac`: per channel
`floor(max(0, min(18, floor(sign_pow(v / maximum_value, 0.5) * 9 + 9.5))))`,
combined as `quant_r * 19 * 19 + quant_g * 19 + quant_b`, cast `as usize`. -/
noncomputable def encode_ac (value : ℝ × ℝ × ℝ) (maximum_value : ℝ) : ℕ :=
  let quant_r : ℤ :=
    ⌊max 0 (min 18 ((⌊sign_pow (value.1 / maximum_value) 0.5 * 9 + 9.5⌋ : ℤ) : ℝ))⌋
  let quant_g : ℤ :=
    ⌊max 0 (min 18 ((⌊sign_pow (value.2.1 / maximum_value) 0.5 * 9 + 9.5⌋ : ℤ) : ℝ))⌋
  let quant_b : ℤ :=
    ⌊max 0 (min 18 ((⌊sign_pow (value.2.2 / maximum_value) 0.5 * 9 + 9.5⌋ : ℤ) : ℝ))⌋
  (quant_r * 19 * 19 + quant_g * 19 + quant_b).toNat

/-- Model of Rust's `Iterator::max_by` (with a total comparator): fold
that keeps the running maximum, `none` on an empty iterator. -/
def list_max_by (l : List ℝ) : Option ℝ :=
  l.foldl
    (fun acc x =>
      match acc with
      | none => some x
      | some m => some (max m x))
    none

/-- Mirrors the `actual_maximum_value` computation in `encode`:
map each AC triple to `max(max(|a|, |b|), |c|)`, then take the maximum;
`.getD 0` models the `.unwrap()` that is guarded by `!ac.is_empty()`. -/
noncomputable def actual_maximum_value (ac : List (ℝ × ℝ × ℝ)) : ℝ :=
  (list_max_by (ac.map fun t => max (max |t.1| |t.2.1|) |t.2.2|)).getD 0

/-- Mirrors the max-value-flag branch of `encode` (lines 98-117): on a
non-empty AC list, quantise the actual maximum as
`max(0, min(82, floor(actualMax * 166 - 0.5) as usize))` and use
magnitude `(quantised + 1) / 166`; on an empty AC list the flag is 0 and
the magnitude 1. Returns `(flag value, maximum_value)`. -/
noncomputable def max_value_flag_and_magnitude (ac : List (ℝ × ℝ × ℝ)) : ℕ × ℝ :=
  if ac.isEmpty then (0, 1)
  else
    let quantised_maximum_value : ℕ :=
      max 0 (min 82 (⌊actual_maximum_value ac * 166 - 0.5⌋ : ℤ).toNat)
    (quantised_maximum_value, ((quantised_maximum_value : ℝ) + 1) / 166)

/-- Mirrors `ENCODE_CHARACTERS`: the fixed 83-character alphabet. -/
def ENCODE_CHARACTERS : List Char :=
  ['0', '1', '2', '3', '4', '5', '6', '7', '8', '9', 'A', 'B', 'C', 'D', 'E', 'F', 'G', 'H', 'I',
   'J', 'K', 'L', 'M', 'N', 'O', 'P', 'Q', 'R', 'S', 'T', 'U', 'V', 'W', 'X', 'Y', 'Z', 'a', 'b',
   'c', 'd', 'e', 'f', 'g', 'h', 'i', 'j', 'k', 'l', 'm', 'n', 'o', 'p', 'q', 'r', 's', 't', 'u',
   'v', 'w', 'x', 'y', 'z', '#', '$', '%', '*', '+', ',', '-', '.', ':', ';', '=', '?', '@', '[',
   ']', '^', '_', '\x7b', '|', '\x7d', '~']

/-- Mirrors `encode_base83_string`: digit `i` (for `i` in `1..=length`)
is `(value / 83 ^ (length - i)) % 83`, mapped through the alphabet.
Written with `i` shifted to `0..length` via `j + 1 = i`. -/
def encode_base83_string (value : ℕ) (length : ℕ) : String :=
  String.mk ((List.range length).map fun j =>
    ENCODE_CHARACTERS.getD ((value / 83 ^ (length - (j + 1))) % 83) ' ')

/-- Mirrors `encode`: validation of the component counts and the buffer
length, the DC/AC factor loop, and the concatenated base-83 hash. -/
noncomputable def encode (pixels : List ℕ) (cx cy width height : ℕ) :
    Except EncodingError String :=
  if cx < 1 ∨ 9 < cx ∨ cy < 1 ∨ 9 < cy then
    .error EncodingError.ComponentsNumberInvalid
  else if width * height * 4 ≠ pixels.length then
    .error EncodingError.BytesPerPixelMismatch
  else
    let dc := blur_factor pixels width height 0 0
    let ac := ac_list pixels cx cy width height
    let qm := max_value_flag_and_magnitude ac
    .ok (ac.foldl
      (fun hash factor => hash ++ encode_base83_string (encode_ac factor qm.2) 2)
      (encode_base83_string (size_flag cx cy) 1 ++
        encode_base83_string qm.1 1 ++
        encode_base83_string (encode_dc dc) 4))

/-! ## Helper lemmas about the base-83 encoder -/

theorem length_encode_base83 (v n : ℕ) : (encode_base83_string v n).length = n := by
  simp [encode_base83_string, String.length]

theorem mem_alphabet_of_mem_base83 (v n : ℕ) (c : Char)
    (h : c ∈ (encode_base83_string v n).data) : c ∈ ENCODE_CHARACTERS := by
  simp only [encode_base83_string] at h
  rcases List.mem_map.1 h with ⟨j, _, rfl⟩
  have hd : (v / 83 ^ (n - (j + 1))) % 83 < ENCODE_CHARACTERS.length := by
    have h83 : (v / 83 ^ (n - (j + 1))) % 83 < 83 := Nat.mod_lt _ (by norm_num)
    have hlen : ENCODE_CHARACTERS.length = 83 := by decide
    omega
  rw [List.getD_eq_getElem _ _ hd]
  exact List.getElem_mem hd

/-- C6: `encode_base83_string` produces exactly `digitCount` characters,
most-significant digit first; the character at 1-indexed position `i` is
the alphabet entry at `(value / 83 ^ (digitCount - i)) % 83`; and the
three boundary examples hold. -/
theorem base83_digit_formula :
    (∀ v n, (encode_base83_string v n).length = n) ∧
    (∀ v n i, 1 ≤ i → i ≤ n →
      (encode_base83_string v n).data.getD (i - 1) ' ' =
        ENCODE_CHARACTERS.getD ((v / 83 ^ (n - i)) % 83) ' ') ∧
    encode_base83_string 0 1 = "0" ∧
    encode_base83_string 82 1 = "~" ∧
    encode_base83_string 83 2 = "10" := by
  refine ⟨length_encode_base83, ?_, by decide, by decide, by decide⟩
  intro v n i h1 h2
  have hlt : i - 1 < ((List.range n).map fun j =>
      ENCODE_CHARACTERS.getD ((v / 83 ^ (n - (j + 1))) % 83) ' ').length := by
    simp; omega
  simp only [encode_base83_string]
  rw [List.getD_eq_getElem _ _ hlt]
  simp only [List.getElem_map, List.getElem_range]
  have : i - 1 + 1 = i := by omega
  rw [this]

/-- Witness for `base83_digit_formula` at `value = 83`, `digitCount = 2`,
position `i = 1`. -/
theorem base83_digit_formula_spot :
    (1 : ℕ) ≤ 2 ∧
    (encode_base83_string 83 2).data.getD 0 ' ' =
      ENCODE_CHARACTERS.getD ((83 / 83 ^ (2 - 1)) % 83) ' ' := by
  exact ⟨by omega, base83_digit_formula.2.1 83 2 1 (by omega) (by omega)⟩

/-- C9: for any `value` and `digitCount`, even when
`value ≥ 83 ^ digitCount`, `encode_base83_string` truncates: its output
equals the encoding of `value % 83 ^ digitCount`. -/
theorem base83_truncates (value n : ℕ) (hof : 83 ^ n ≤ value) :
    encode_base83_string value n = encode_base83_string (value % 83 ^ n) n := by
  clear hof
  simp only [encode_base83_string]
  congr 1
  refine List.map_congr_left fun j hj => ?_
  have hjn : j < n := List.mem_range.1 hj
  have hsplit : (83 : ℕ) ^ n = 83 ^ (n - (j + 1)) * 83 ^ (j + 1) := by
    rw [← pow_add]
    congr 1
    omega
  have hdigit : value % 83 ^ n / 83 ^ (n - (j + 1)) % 83 =
      value / 83 ^ (n - (j + 1)) % 83 := by
    rw [hsplit, Nat.mod_mul_right_div_self,
      Nat.mod_mod_of_dvd _ (dvd_pow_self 83 (by omega : j + 1 ≠ 0))]
  rw [hdigit]

/-- Witness for `base83_truncates` at `value = 6889 = 83 ^ 2`,
`digitCount = 1`. -/
theorem base83_truncates_spot :
    83 ^ 1 ≤ 6889 ∧
    encode_base83_string 6889 1 = encode_base83_string (6889 % 83 ^ 1) 1 := by
  exact ⟨by norm_num, base83_truncates 6889 1 (by norm_num)⟩

/-- C4: `encode` returns `ComponentsNumberInvalid` whenever a component
count lies outside `[1, 9]`, and `BytesPerPixelMismatch` whenever the
component counts are valid but the buffer length differs from
`width * height * 4`; in the model both results are produced by the two
leading validation branches, before any pixel is read. -/
theorem encode_validation (pixels : List ℕ) (cx cy width height : ℕ) :
    ((cx < 1 ∨ 9 < cx ∨ cy < 1 ∨ 9 < cy) →
      encode pixels cx cy width height = .error EncodingError.ComponentsNumberInvalid) ∧
    (1 ≤ cx → cx ≤ 9 → 1 ≤ cy → cy ≤ 9 → pixels.length ≠ width * height * 4 →
      encode pixels cx cy width height = .error EncodingError.BytesPerPixelMismatch) := by
  constructor
  · intro h
    simp only [encode]
    rw [if_pos h]
  · intro h1 h2 h3 h4 h5
    simp only [encode]
    rw [if_neg (by omega), if_pos (by omega)]

/-- Witness for `encode_validation`: `componentsX = 0` is rejected as
`ComponentsNumberInvalid`, and a 3-byte buffer for a 1x1 image is
rejected as `BytesPerPixelMismatch`. -/
theorem encode_validation_spot :
    encode [] 0 1 1 1 = .error EncodingError.ComponentsNumberInvalid ∧
    encode (List.replicate 3 0) 1 1 1 1 = .error EncodingError.BytesPerPixelMismatch := by
  constructor
  · exact (encode_validation [] 0 1 1 1).1 (by omega)
  · exact (encode_validation (List.replicate 3 0) 1 1 1 1).2
      (by omega) (by omega) (by omega) (by omega) (by simp)

/-- C10: under `encode`'s validation (`pixels.length = width * height * 4`),
every index `bytes_per_pixel * x + pixel_offset + c + y * bytes_per_row`
computed in the hot loop (with `bytes_per_pixel = 4`, `pixel_offset = 0`,
`bytes_per_row = width * 4`, `x < width`, `y < height`, `c ≤ 2`) is
strictly below the buffer length, so no pixel read is out of bounds. -/
theorem pixel_index_in_bounds (pixels : List ℕ) (width height x y c : ℕ)
    (hx : x < width) (hy : y < height) (hc : c ≤ 2)
    (hlen : pixels.length = width * height * 4) :
    pixel_index 4 x 0 c y (width * 4) < pixels.length := by
  simp only [pixel_index, hlen]
  calc 4 * x + 0 + c + y * (width * 4)
      < width * 4 + y * (width * 4) := by omega
    _ = (y + 1) * (width * 4) := by ring
    _ ≤ height * (width * 4) := Nat.mul_le_mul_right _ (by omega)
    _ = width * height * 4 := by ring

/-- Witness for `pixel_index_in_bounds`: the blue-channel byte of the
last pixel of a 2x2 buffer of 16 bytes is at index 14 < 16. -/
theorem pixel_index_in_bounds_spot :
    (List.replicate 16 (0 : ℕ)).length = 2 * 2 * 4 ∧
    pixel_index 4 1 0 2 1 (2 * 4) < (List.replicate 16 (0 : ℕ)).length := by
  refine ⟨by simp, ?_⟩
  exact pixel_index_in_bounds (List.replicate 16 0) 2 2 1 1 2
    (by omega) (by omega) (by omega) (by simp)

/-! ## Range bounds of the quantized fields -/

theorem nat_floor_half_255 : ⌊(255.5 : ℝ)⌋₊ = 255 := by
  rw [Nat.floor_eq_iff (by norm_num)]
  norm_num

theorem linear_to_srgb_le_255 (value : ℝ) : linear_to_srgb value ≤ 255 := by
  simp only [linear_to_srgb]
  have hv0 : (0 : ℝ) ≤ max 0 (min 1 value) := le_max_left 0 _
  have hv1 : max 0 (min 1 value) ≤ 1 := max_le (by norm_num) (min_le_left 1 value)
  split
  · rename_i h
    have hle : max 0 (min 1 value) * 12.92 * 255 + 0.5 ≤ 255.5 := by nlinarith
    calc ⌊max 0 (min 1 value) * 12.92 * 255 + 0.5⌋₊
        ≤ ⌊(255.5 : ℝ)⌋₊ := Nat.floor_le_floor hle
      _ = 255 := nat_floor_half_255
  · rename_i h
    have hre : max 0 (min 1 value) ^ ((1 : ℝ) / 2.4) ≤ 1 :=
      Real.rpow_le_one hv0 hv1 (by norm_num)
    have hle : (1.055 * max 0 (min 1 value) ^ ((1 : ℝ) / 2.4) - 0.055) * 255 + 0.5 ≤ 255.5 := by
      nlinarith
    calc ⌊(1.055 * max 0 (min 1 value) ^ ((1 : ℝ) / 2.4) - 0.055) * 255 + 0.5⌋₊
        ≤ ⌊(255.5 : ℝ)⌋₊ := Nat.floor_le_floor hle
      _ = 255 := nat_floor_half_255

theorem encode_dc_le (t : ℝ × ℝ × ℝ) : encode_dc t ≤ 16777215 := by
  have h1 := linear_to_srgb_le_255 t.1
  have h2 := linear_to_srgb_le_255 t.2.1
  have h3 := linear_to_srgb_le_255 t.2.2
  simp only [encode_dc, Nat.shiftLeft_eq]
  norm_num
  omega

theorem quant_clamp_bounds (z : ℝ) :
    (0 : ℤ) ≤ ⌊max 0 (min 18 z)⌋ ∧ ⌊max 0 (min 18 z)⌋ ≤ 18 := by
  constructor
  · exact Int.floor_nonneg.2 (le_max_left 0 _)
  · have hle : max 0 (min 18 z) ≤ 18 := max_le (by norm_num) (min_le_left _ _)
    calc ⌊max 0 (min 18 z)⌋ ≤ ⌊(18 : ℝ)⌋ := Int.floor_le_floor hle
      _ = 18 := by norm_num

theorem encode_ac_le (t : ℝ × ℝ × ℝ) (M : ℝ) : encode_ac t M ≤ 6858 := by
  simp only [encode_ac]
  obtain ⟨h1a, h1b⟩ := quant_clamp_bounds ((⌊sign_pow (t.1 / M) 0.5 * 9 + 9.5⌋ : ℤ) : ℝ)
  obtain ⟨h2a, h2b⟩ := quant_clamp_bounds ((⌊sign_pow (t.2.1 / M) 0.5 * 9 + 9.5⌋ : ℤ) : ℝ)
  obtain ⟨h3a, h3b⟩ := quant_clamp_bounds ((⌊sign_pow (t.2.2 / M) 0.5 * 9 + 9.5⌋ : ℤ) : ℝ)
  omega

theorem max_value_flag_le_82 (ac : List (ℝ × ℝ × ℝ)) :
    (max_value_flag_and_magnitude ac).1 ≤ 82 := by
  simp only [max_value_flag_and_magnitude]
  split
  · simp
  · simp only []
    calc max 0 (min 82 (⌊actual_maximum_value ac * 166 - 0.5⌋ : ℤ).toNat)
        = min 82 (⌊actual_maximum_value ac * 166 - 0.5⌋ : ℤ).toNat := Nat.zero_max _
      _ ≤ 82 := Nat.min_le_left _ _

/-- C7: every quantized integer of `encode` fits its base-83 digit
budget: the size flag and max-value flag are at most 82, the packed DC
integer is at most 16777215 (each `linear_to_srgb` sample is at most
255), and the AC integer is at most 6858 for every triple and every
`maximum_value`. -/
theorem quantized_fields_fit_budget :
    (∀ cx cy, 1 ≤ cx → cx ≤ 9 → 1 ≤ cy → cy ≤ 9 → size_flag cx cy ≤ 82) ∧
    (∀ ac : List (ℝ × ℝ × ℝ), (max_value_flag_and_magnitude ac).1 ≤ 82) ∧
    (∀ v : ℝ, linear_to_srgb v ≤ 255) ∧
    (∀ t : ℝ × ℝ × ℝ, encode_dc t ≤ 16777215) ∧
    (∀ (t : ℝ × ℝ × ℝ) (M : ℝ), encode_ac t M ≤ 6858) := by
  refine ⟨?_, max_value_flag_le_82, linear_to_srgb_le_255, encode_dc_le, encode_ac_le⟩
  intro cx cy h1 h2 h3 h4
  simp only [size_flag]
  omega

/-- Witness for `quantized_fields_fit_budget` at the largest valid grid
(9, 9) and a concrete AC triple. -/
theorem quantized_fields_fit_budget_spot :
    size_flag 9 9 ≤ 82 ∧ encode_ac (0, 0, 0) 1 ≤ 6858 := by
  exact ⟨quantized_fields_fit_budget.1 9 9 (by omega) (by omega) (by omega) (by omega),
    quantized_fields_fit_budget.2.2.2.2 (0, 0, 0) 1⟩

/-! ## Shape of the hash string (C1) -/

theorem hash_foldl_length (l : List (ℝ × ℝ × ℝ)) (M : ℝ) :
    ∀ init : String,
      (l.foldl (fun hash factor => hash ++ encode_base83_string (encode_ac factor M) 2)
          init).length = init.length + 2 * l.length := by
  induction l with
  | nil => intro init; simp
  | cons hd tl ih =>
    intro init
    simp only [List.foldl_cons]
    rw [ih, String.length_append, length_encode_base83, List.length_cons]
    omega

theorem hash_foldl_mem (l : List (ℝ × ℝ × ℝ)) (M : ℝ) :
    ∀ (init : String) (c : Char),
      c ∈ (l.foldl (fun hash factor => hash ++ encode_base83_string (encode_ac factor M) 2)
          init).data →
        c ∈ init.data ∨ c ∈ ENCODE_CHARACTERS := by
  induction l with
  | nil => intro init c h; exact Or.inl h
  | cons hd tl ih =>
    intro init c h
    simp only [List.foldl_cons] at h
    rcases ih _ c h with h2 | h2
    · rw [String.data_append] at h2
      rcases List.mem_append.1 h2 with h3 | h3
      · exact Or.inl h3
      · exact Or.inr (mem_alphabet_of_mem_base83 _ _ _ h3)
    · exact Or.inr h2

theorem length_filterMap_all_some (f : ℕ → Option (ℝ × ℝ × ℝ)) (g : ℕ → ℝ × ℝ × ℝ)
    (l : List ℕ) (h : ∀ x ∈ l, f x = some (g x)) : (l.filterMap f).length = l.length := by
  induction l with
  | nil => simp
  | cons a t ih =>
    rw [List.filterMap_cons, h a (List.mem_cons_self a t), List.length_cons, List.length_cons,
      ih fun x hx => h x (List.mem_cons_of_mem a hx)]

theorem grid_row_length (pixels : List ℕ) (width height cx y : ℕ) (hcx : 1 ≤ cx) :
    ((List.range cx).filterMap fun x =>
        if x = 0 ∧ y = 0 then none else some (blur_factor pixels width height x y)).length =
      if y = 0 then cx - 1 else cx := by
  by_cases hy : y = 0
  · subst hy
    obtain ⟨k, rfl⟩ : ∃ k, cx = k + 1 := ⟨cx - 1, by omega⟩
    rw [List.range_succ_eq_map, List.filterMap_cons, if_pos ⟨rfl, rfl⟩, List.filterMap_map,
      if_pos rfl]
    have hlen := length_filterMap_all_some
      ((fun x => if x = 0 ∧ 0 = 0 then none else some (blur_factor pixels width height x 0)) ∘
        Nat.succ)
      (fun x => blur_factor pixels width height (Nat.succ x) 0) (List.range k)
      (fun x _ => by simp [Function.comp])
    rw [hlen, List.length_range]
    omega
  · rw [if_neg hy]
    have hlen := length_filterMap_all_some
      (fun x => if x = 0 ∧ y = 0 then none else some (blur_factor pixels width height x y))
      (fun x => blur_factor pixels width height x y) (List.range cx)
      (fun x _ => by simp [hy])
    rw [hlen, List.length_range]

theorem ac_list_length (pixels : List ℕ) (cx cy width height : ℕ)
    (hcx : 1 ≤ cx) (hcy : 1 ≤ cy) :
    (ac_list pixels cx cy width height).length = cx * cy - 1 := by
  simp only [ac_list, List.length_flatMap, Function.comp_def]
  have hrows : ((List.range cy).map fun y =>
      ((List.range cx).filterMap fun x =>
        if x = 0 ∧ y = 0 then none else some (blur_factor pixels width height x y)).length) =
      (List.range cy).map fun y => if y = 0 then cx - 1 else cx :=
    List.map_congr_left fun y _ => grid_row_length pixels width height cx y hcx
  rw [hrows]
  obtain ⟨m, rfl⟩ : ∃ m, cy = m + 1 := ⟨cy - 1, by omega⟩
  rw [List.range_succ_eq_map, List.map_cons, if_pos rfl, List.map_map]
  have hconst : ((fun y => if y = 0 then cx - 1 else cx) ∘ Nat.succ) =
      fun _ : ℕ => cx := by
    funext y
    simp [Function.comp]
  rw [hconst, List.sum_cons, List.map_const', List.sum_replicate, List.length_range,
    smul_eq_mul]
  have hmul : cx * (m + 1) = m * cx + cx := by ring
  omega

/-- C1: on any validated input (components in [1,9], buffer of length
`width * height * 4`, positive dimensions), `encode` returns `Ok` with a
string of length exactly `6 + 2 * (componentsX * componentsY - 1)` whose
characters all come from the 83-character alphabet. -/
theorem encode_ok_shape (pixels : List ℕ) (cx cy width height : ℕ)
    (hcx1 : 1 ≤ cx) (hcx9 : cx ≤ 9) (hcy1 : 1 ≤ cy) (hcy9 : cy ≤ 9)
    (hw : 1 ≤ width) (hh : 1 ≤ height)
    (hlen : pixels.length = width * height * 4) :
    ∃ s, encode pixels cx cy width height = .ok s ∧
      s.length = 6 + 2 * (cx * cy - 1) ∧
      ∀ c ∈ s.data, c ∈ ENCODE_CHARACTERS := by
  simp only [encode]
  rw [if_neg (by omega), if_neg (by omega)]
  refine ⟨_, rfl, ?_, ?_⟩
  · rw [hash_foldl_length, String.length_append, String.length_append,
      length_encode_base83, length_encode_base83, length_encode_base83,
      ac_list_length pixels cx cy width height hcx1 hcy1]
  · intro c hc
    rcases hash_foldl_mem _ _ _ c hc with h | h
    · rw [String.data_append, String.data_append] at h
      rcases List.mem_append.1 h with h2 | h2
      · rcases List.mem_append.1 h2 with h3 | h3
        · exact mem_alphabet_of_mem_base83 _ _ _ h3
        · exact mem_alphabet_of_mem_base83 _ _ _ h3
      · exact mem_alphabet_of_mem_base83 _ _ _ h2
    · exact h

/-- Witness for `encode_ok_shape`: a 1x1 black RGBA image with grid
(1, 1) yields a 6-character hash over the alphabet. -/
theorem encode_ok_shape_spot :
    (List.replicate 4 (0 : ℕ)).length = 1 * 1 * 4 ∧
    ∃ s, encode (List.replicate 4 0) 1 1 1 1 = .ok s ∧
      s.length = 6 + 2 * (1 * 1 - 1) ∧
      ∀ c ∈ s.data, c ∈ ENCODE_CHARACTERS := by
  refine ⟨by simp, ?_⟩
  exact encode_ok_shape (List.replicate 4 0) 1 1 1 1
    (by omega) (by omega) (by omega) (by omega) (by omega) (by omega) (by simp)

/-! ## The max-value flag and normalization magnitude (C5) -/

theorem list_max_by_fold_some (l : List ℝ) (m : ℝ) :
    l.foldl (fun acc x => match acc with | none => some x | some m => some (max m x)) (some m)
      = some (l.foldl max m) := by
  induction l generalizing m with
  | nil => rfl
  | cons a t ih => simpa using ih (max m a)

theorem list_max_by_cons (a : ℝ) (t : List ℝ) :
    list_max_by (a :: t) = some (t.foldl max a) := by
  simp only [list_max_by, List.foldl_cons]
  exact list_max_by_fold_some t a

theorem le_foldl_max (t : List ℝ) : ∀ a : ℝ, a ≤ t.foldl max a := by
  induction t with
  | nil => intro a; simp
  | cons b t ih =>
    intro a
    simp only [List.foldl_cons]
    exact le_trans (le_max_left a b) (ih (max a b))

theorem foldl_max_ge_mem (t : List ℝ) : ∀ a b : ℝ, b ∈ t → b ≤ t.foldl max a := by
  induction t with
  | nil => intro a b h; cases h
  | cons c t ih =>
    intro a b h
    rcases List.mem_cons.1 h with rfl | h2
    · exact le_trans (le_max_right a b) (le_foldl_max t (max a b))
    · exact ih (max a c) b h2

theorem foldl_max_mem (t : List ℝ) : ∀ a : ℝ, t.foldl max a = a ∨ t.foldl max a ∈ t := by
  induction t with
  | nil => intro a; exact Or.inl rfl
  | cons c t ih =>
    intro a
    rcases ih (max a c) with h | h
    · rcases max_cases a c with ⟨he, _⟩ | ⟨he, _⟩
      · exact Or.inl (by rw [List.foldl_cons, h, he])
      · refine Or.inr ?_
        rw [List.foldl_cons, h, he]
        exact List.mem_cons_self c t
    · refine Or.inr (List.mem_cons_of_mem c ?_)
      rw [List.foldl_cons]
      exact h

/-- C5: when the AC list is non-empty, `actual_maximum_value` is the
maximum absolute component over all AC triples (flattening R, G, B), the
max-value flag equals `clamp(floor(actualMax * 166 - 0.5), 0, 82)` over
the integers (so a negative floor clamps to 0), and the magnitude is
`(flag + 1) / 166`; when the AC list is empty, the flag is 0 and the
magnitude is 1. -/
theorem max_flag_spec (ac : List (ℝ × ℝ × ℝ)) :
    (ac ≠ [] →
      (∀ t ∈ ac, |t.1| ≤ actual_maximum_value ac ∧ |t.2.1| ≤ actual_maximum_value ac ∧
        |t.2.2| ≤ actual_maximum_value ac) ∧
      (∃ t ∈ ac, actual_maximum_value ac = |t.1| ∨ actual_maximum_value ac = |t.2.1| ∨
        actual_maximum_value ac = |t.2.2|) ∧
      (((max_value_flag_and_magnitude ac).1 : ℤ) =
        max 0 (min 82 ⌊actual_maximum_value ac * 166 - 0.5⌋)) ∧
      ((max_value_flag_and_magnitude ac).2 =
        (((max_value_flag_and_magnitude ac).1 : ℝ) + 1) / 166)) ∧
    (ac = [] → max_value_flag_and_magnitude ac = (0, 1)) := by
  constructor
  · intro hne
    obtain ⟨t0, rest, rfl⟩ : ∃ t0 rest, ac = t0 :: rest := by
      cases ac with
      | nil => exact absurd rfl hne
      | cons a t => exact ⟨a, t, rfl⟩
    have hA : actual_maximum_value (t0 :: rest) =
        (rest.map fun t => max (max |t.1| |t.2.1|) |t.2.2|).foldl max
          (max (max |t0.1| |t0.2.1|) |t0.2.2|) := by
      simp only [actual_maximum_value, List.map_cons, list_max_by_cons, Option.getD_some]
    have hflag : (max_value_flag_and_magnitude (t0 :: rest)).1 =
        max 0 (min 82 (⌊actual_maximum_value (t0 :: rest) * 166 - 0.5⌋ : ℤ).toNat) := by
      simp [max_value_flag_and_magnitude]
    refine ⟨?_, ?_, ?_, ?_⟩
    · intro t ht
      have hcomp : max (max |t.1| |t.2.1|) |t.2.2| ≤ actual_maximum_value (t0 :: rest) := by
        rw [hA]
        rcases List.mem_cons.1 ht with rfl | h2
        · exact le_foldl_max _ _
        · exact foldl_max_ge_mem _ _ _ (List.mem_map_of_mem _ h2)
      refine ⟨le_trans ?_ hcomp, le_trans ?_ hcomp, le_trans ?_ hcomp⟩
      · exact le_trans (le_max_left _ _) (le_max_left _ _)
      · exact le_trans (le_max_right _ _) (le_max_left _ _)
      · exact le_max_right _ _
    · have hmem : actual_maximum_value (t0 :: rest) = max (max |t0.1| |t0.2.1|) |t0.2.2| ∨
          actual_maximum_value (t0 :: rest) ∈
            rest.map fun t => max (max |t.1| |t.2.1|) |t.2.2| := by
        rw [hA]
        exact foldl_max_mem _ _
      have hx : ∃ t ∈ t0 :: rest,
          actual_maximum_value (t0 :: rest) = max (max |t.1| |t.2.1|) |t.2.2| := by
        rcases hmem with h | h
        · exact ⟨t0, List.mem_cons_self t0 rest, h⟩
        · rcases List.mem_map.1 h with ⟨t, ht, he⟩
          exact ⟨t, List.mem_cons_of_mem t0 ht, he.symm⟩
      rcases hx with ⟨t, ht, he⟩
      refine ⟨t, ht, ?_⟩
      rcases max_cases (max |t.1| |t.2.1|) |t.2.2| with ⟨h1, _⟩ | ⟨h1, _⟩
      · rcases max_cases |t.1| |t.2.1| with ⟨h2, _⟩ | ⟨h2, _⟩
        · exact Or.inl (by rw [he, h1, h2])
        · exact Or.inr (Or.inl (by rw [he, h1, h2]))
      · exact Or.inr (Or.inr (by rw [he, h1]))
    · rw [hflag]
      omega
    · simp [max_value_flag_and_magnitude]
  · intro he
    subst he
    simp [max_value_flag_and_magnitude]

/-- Witness for `max_flag_spec` on the single all-zero AC triple, where
`actualMax * 166 - 0.5` is negative and the flag clamps to 0. -/
theorem max_flag_spec_spot :
    ([((0 : ℝ), (0 : ℝ), (0 : ℝ))] : List (ℝ × ℝ × ℝ)) ≠ [] ∧
    (((max_value_flag_and_magnitude [((0 : ℝ), (0 : ℝ), (0 : ℝ))]).1 : ℤ) =
      max 0 (min 82 ⌊actual_maximum_value [((0 : ℝ), (0 : ℝ), (0 : ℝ))] * 166 - 0.5⌋)) := by
  have h := (max_flag_spec [((0 : ℝ), (0 : ℝ), (0 : ℝ))]).1 (by simp)
  exact ⟨by simp, h.2.2.1⟩

/-! ## Uniform images (C2) -/

theorem getD_replicate_zero (n i : ℕ) : (List.replicate n (0 : ℕ)).getD i 0 = 0 := by
  rcases Nat.lt_or_ge i n with h | h
  · rw [List.getD_eq_getElem _ _ (by simpa using h)]
    simp
  · rw [List.getD_eq_default _ _ (by simpa using h)]

theorem srgb_to_linear_zero : srgb_to_linear 0 = 0 := by
  simp only [srgb_to_linear]
  rw [if_pos (by norm_num)]
  norm_num

theorem srgb_to_linear_255 : srgb_to_linear 255 = 1 := by
  simp only [srgb_to_linear]
  rw [if_neg (by norm_num)]
  norm_num

theorem blur_factor_black (n width height x y : ℕ) :
    blur_factor (List.replicate n 0) width height x y = (0, 0, 0) := by
  have hz : ∀ i, srgb_to_linear ((List.replicate n (0 : ℕ)).getD i 0) = 0 := fun i => by
    rw [getD_replicate_zero]
    exact srgb_to_linear_zero
  simp [blur_factor, multiply_basis_function, hz, srgb_to_linear_zero]

theorem ac_list_black (n cx cy width height : ℕ) :
    ∀ t ∈ ac_list (List.replicate n 0) cx cy width height, t = ((0 : ℝ), (0 : ℝ), (0 : ℝ)) := by
  intro t ht
  simp only [ac_list] at ht
  rcases List.mem_flatMap.1 ht with ⟨y, _, hy⟩
  rcases List.mem_filterMap.1 hy with ⟨x, _, hx⟩
  by_cases hxy : x = 0 ∧ y = 0
  · rw [if_pos hxy] at hx
    cases hx
  · rw [if_neg hxy] at hx
    have := Option.some.inj hx
    rw [← this, blur_factor_black]

theorem encode_ac_zero_triple (M : ℝ) : encode_ac (0, 0, 0) M = 3429 := by
  have hz : sign_pow ((0 : ℝ) / M) 0.5 = 0 := by
    rw [zero_div]
    simp only [sign_pow]
    rw [if_neg (lt_irrefl 0), abs_zero]
    exact Real.zero_rpow (by norm_num)
  simp only [encode_ac, hz]
  have h9 : (⌊(0 : ℝ) * 9 + 9.5⌋ : ℤ) = 9 := by
    rw [Int.floor_eq_iff]
    constructor <;> norm_num
  rw [h9]
  have h18 : (⌊max (0 : ℝ) (min 18 ((9 : ℤ) : ℝ))⌋ : ℤ) = 9 := by
    rw [show max (0 : ℝ) (min 18 ((9 : ℤ) : ℝ)) = ((9 : ℤ) : ℝ) by norm_num]
    exact Int.floor_intCast 9
  rw [h18]
  decide

/-- C2 (amended): a perfectly uniform BLACK image of any size yields
all-zero AC coefficient triples, and every AC sample encodes to the
integer `9 * 19 * 19 + 9 * 19 + 9 = 3429` (each channel quantizes to
index 9) under the magnitude `encode` computes for it, independent of
image size and grid size. -/
theorem uniform_black_ac_encodes_3429 (cx cy width height : ℕ) :
    (∀ t ∈ ac_list (List.replicate (width * height * 4) 0) cx cy width height,
      t = ((0 : ℝ), (0 : ℝ), (0 : ℝ))) ∧
    encode_ac ((0 : ℝ), (0 : ℝ), (0 : ℝ))
      (max_value_flag_and_magnitude
        (ac_list (List.replicate (width * height * 4) 0) cx cy width height)).2 = 3429 := by
  exact ⟨ac_list_black _ cx cy width height, encode_ac_zero_triple _⟩

/-- A 2x1 buffer of two identical white RGBA pixels: a perfectly
uniform-color image. -/
def white_pixels : List ℕ := [255, 255, 255, 255, 255, 255, 255, 255]

theorem blur_factor_white : blur_factor white_pixels 2 1 1 0 = ((1 : ℝ), 1, 1) := by
  simp only [blur_factor, multiply_basis_function, pixel_index]
  rw [if_neg (by omega)]
  simp only [Finset.sum_range_succ, Finset.sum_range_zero, Finset.sum_range_one]
  norm_num [white_pixels, srgb_to_linear_255]

theorem ac_list_white : ac_list white_pixels 2 1 2 1 = [((1 : ℝ), 1, 1)] := by
  simp only [ac_list, show List.range 1 = [0] from rfl, show List.range 2 = [0, 1] from rfl,
    List.flatMap_cons, List.flatMap_nil, List.filterMap_cons, List.filterMap_nil]
  norm_num [blur_factor_white]

theorem mv_flag_white : max_value_flag_and_magnitude [((1 : ℝ), 1, 1)] = (82, 1 / 2) := by
  simp only [max_value_flag_and_magnitude]
  rw [if_neg (by simp)]
  have ha : actual_maximum_value [((1 : ℝ), 1, 1)] = 1 := by
    simp [actual_maximum_value, list_max_by]
  rw [ha]
  have hf : (⌊(1 : ℝ) * 166 - 0.5⌋ : ℤ) = 165 := by
    rw [Int.floor_eq_iff]
    constructor <;> norm_num
  rw [hf]
  norm_num

theorem sign_pow_two_half : sign_pow 2 0.5 = Real.sqrt 2 := by
  simp only [sign_pow]
  rw [if_neg (by norm_num), show |(2 : ℝ)| = 2 by norm_num, Real.sqrt_eq_rpow]
  norm_num

theorem encode_ac_white : encode_ac ((1 : ℝ), 1, 1) (1 / 2) = 6858 := by
  have floor22 : (⌊sign_pow ((1 : ℝ) / (1 / 2)) 0.5 * 9 + 9.5⌋ : ℤ) = 22 := by
    rw [show (1 : ℝ) / (1 / 2) = 2 by norm_num, sign_pow_two_half]
    have hs2 : Real.sqrt 2 ^ 2 = 2 := Real.sq_sqrt (by norm_num)
    have hsn : 0 ≤ Real.sqrt 2 := Real.sqrt_nonneg 2
    rw [Int.floor_eq_iff]
    constructor
    · push_cast
      nlinarith
    · push_cast
      nlinarith
  simp only [encode_ac]
  rw [floor22]
  have h18 : (⌊max (0 : ℝ) (min 18 ((22 : ℤ) : ℝ))⌋ : ℤ) = 18 := by
    rw [show max (0 : ℝ) (min 18 ((22 : ℤ) : ℝ)) = ((18 : ℤ) : ℝ) by norm_num]
    exact Int.floor_intCast 18
  rw [h18]
  decide

/-- C2 (counterexample): the perfectly uniform WHITE 2x1 image has AC
coefficient (1, 1, 1), which is not the zero triple, and its single AC
sample encodes to 6858, not 3609, under the magnitude `encode` computes
for this image. -/
theorem uniform_white_ac_not_3609 :
    ac_list white_pixels 2 1 2 1 = [((1 : ℝ), 1, 1)] ∧
    ((1 : ℝ), (1 : ℝ), (1 : ℝ)) ≠ ((0 : ℝ), (0 : ℝ), (0 : ℝ)) ∧
    encode_ac ((1 : ℝ), 1, 1)
      (max_value_flag_and_magnitude (ac_list white_pixels 2 1 2 1)).2 = 6858 ∧
    (6858 : ℕ) ≠ 3609 := by
  refine ⟨ac_list_white, by simp, ?_, by omega⟩
  rw [ac_list_white, mv_flag_white]
  exact encode_ac_white

/-! ## Round trip of the color conversion pair (C8) -/

theorem srgb_roundtrip_exact (s : ℕ) (hs : s ≤ 255) : linear_to_srgb (srgb_to_linear s) = s := by
  have hs255 : (s : ℝ) ≤ 255 := by exact_mod_cast hs
  have hs0 : (0 : ℝ) ≤ (s : ℝ) := Nat.cast_nonneg s
  by_cases hle : s ≤ 10
  · -- low branch both ways
    have hs10 : (s : ℝ) ≤ 10 := by exact_mod_cast hle
    have hA : srgb_to_linear s = (s : ℝ) / 255 / 12.92 := by
      simp only [srgb_to_linear]
      rw [if_pos (by linarith)]
    rw [hA]
    simp only [linear_to_srgb]
    have h0L : (0 : ℝ) ≤ (s : ℝ) / 255 / 12.92 := by positivity
    have hL1 : (s : ℝ) / 255 / 12.92 ≤ 1 := by
      rw [div_div, div_le_one (by norm_num)]
      linarith
    rw [min_eq_right hL1, max_eq_right h0L,
      if_pos (by rw [div_div, div_le_iff₀ (by norm_num)]; linarith)]
    rw [show (s : ℝ) / 255 / 12.92 * 12.92 * 255 + 0.5 = (s : ℝ) + 0.5 by ring]
    rw [Nat.floor_eq_iff (by positivity)]
    constructor
    · linarith
    · linarith
  · -- high branch both ways
    have hs11 : (11 : ℝ) ≤ (s : ℝ) := by
      have : 11 ≤ s := by omega
      exact_mod_cast this
    have hB : srgb_to_linear s = (((s : ℝ) / 255 + 0.055) / 1.055) ^ (2.4 : ℝ) := by
      simp only [srgb_to_linear]
      rw [if_neg (by intro h; nlinarith)]
    have hu0 : (0 : ℝ) < ((s : ℝ) / 255 + 0.055) / 1.055 := by positivity
    have hu1 : ((s : ℝ) / 255 + 0.055) / 1.055 ≤ 1 := by
      rw [div_le_one (by norm_num)]
      linarith
    have hub : (1001 / 10761 : ℝ) ≤ ((s : ℝ) / 255 + 0.055) / 1.055 := by
      rw [le_div_iff₀ (by norm_num)]
      have he : (1001 / 10761 : ℝ) * 1.055 = 11 / 255 + 0.055 := by norm_num
      rw [he]
      linarith
    have hLlow : (0.0031308 : ℝ) < (((s : ℝ) / 255 + 0.055) / 1.055) ^ (2.4 : ℝ) := by
      have h1 : ((1001 / 10761 : ℝ)) ^ (2.4 : ℝ) ≤
          (((s : ℝ) / 255 + 0.055) / 1.055) ^ (2.4 : ℝ) :=
        Real.rpow_le_rpow (by norm_num) hub (by norm_num)
      have e1 : ((1001 / 10761 : ℝ)) ^ (2.4 : ℝ) =
          (((1001 / 10761 : ℝ)) ^ (12 : ℕ)) ^ ((1 / 5 : ℝ)) := by
        rw [← Real.rpow_natCast ((1001 / 10761 : ℝ)) 12, ← Real.rpow_mul (by norm_num)]
        norm_num
      have e2 : (0.0031308 : ℝ) = ((0.0031308 : ℝ) ^ (5 : ℕ)) ^ ((1 / 5 : ℝ)) := by
        rw [← Real.rpow_natCast ((0.0031308 : ℝ)) 5, ← Real.rpow_mul (by norm_num)]
        norm_num
      have h2 : (0.0031308 : ℝ) < ((1001 / 10761 : ℝ)) ^ (2.4 : ℝ) := by
        rw [e1, e2]
        apply Real.rpow_lt_rpow (by positivity) ?_ (by norm_num)
        norm_num
      linarith
    have hL0 : (0 : ℝ) ≤ (((s : ℝ) / 255 + 0.055) / 1.055) ^ (2.4 : ℝ) :=
      Real.rpow_nonneg (le_of_lt hu0) _
    have hL1 : (((s : ℝ) / 255 + 0.055) / 1.055) ^ (2.4 : ℝ) ≤ 1 :=
      Real.rpow_le_one (le_of_lt hu0) hu1 (by norm_num)
    rw [hB]
    simp only [linear_to_srgb]
    rw [min_eq_right hL1, max_eq_right hL0, if_neg (by linarith)]
    have hre : ((((s : ℝ) / 255 + 0.055) / 1.055) ^ (2.4 : ℝ)) ^ ((1 : ℝ) / 2.4) =
        ((s : ℝ) / 255 + 0.055) / 1.055 := by
      rw [← Real.rpow_mul (le_of_lt hu0)]
      norm_num
    rw [hre]
    rw [show (1.055 * (((s : ℝ) / 255 + 0.055) / 1.055) - 0.055) * 255 + 0.5
        = (s : ℝ) + 0.5 by field_simp; ring]
    rw [Nat.floor_eq_iff (by positivity)]
    constructor
    · linarith
    · linarith

/-- C8: for every integer sample `s` in 0..255, the round trip
`linear_to_srgb (srgb_to_linear s)` equals `s` or differs from `s` by at
most 1 (in the exact-real model it is in fact equal). -/
theorem srgb_roundtrip_within_one (s : ℕ) (hs : s ≤ 255) :
    |(linear_to_srgb (srgb_to_linear s) : ℤ) - (s : ℤ)| ≤ 1 := by
  rw [srgb_roundtrip_exact s hs]
  simp

/-- Witness for `srgb_roundtrip_within_one` at `s = 128`. -/
theorem srgb_roundtrip_within_one_spot :
    (128 : ℕ) ≤ 255 ∧ |(linear_to_srgb (srgb_to_linear 128) : ℤ) - (128 : ℤ)| ≤ 1 :=
  ⟨by omega, srgb_roundtrip_within_one 128 (by omega)⟩

/-! ## Zero-dimension inputs (C3) -/

/-- C3: contrary to the claim, `encode` does NOT reject
`width = 0 ∨ height = 0`: with `width = height = 0` and an empty
buffer, both validation checks pass (`0 * 0 * 4 = 0` equals the buffer
length) and `encode` returns `Ok`, proceeding into the averaging step
whose scale `1 / (width * height)` divides by zero. -/
theorem encode_accepts_zero_dimensions : (encode [] 1 1 0 0).isOk = true := by
  simp only [encode]
  rw [if_neg (by omega), if_neg (by simp)]
  rfl

end HashHaze
